import Mathlib

/-!
Verification of the barcode-scanner core (repository `antoleod/barcode`).

The JavaScript source is shallowly embedded:
* JS numbers are modelled as exact rationals (`ℚ`) or integers (`ℤ`),
  timestamps as `ℤ` milliseconds;
* pixel buffers are modelled either as flat index functions `ℕ → ℚ`
  (for the windowed filters of `App.jsx`) or as `List ℚ`
  (for the histogram-based primitives, which need the whole buffer);
* JS exceptions thrown by the external decode/OCR engines are modelled
  with `Except`, so a caller that catches them is a total function;
* stateful loop code becomes explicit state passing (one tick = one
  function application) or an inductive reachability relation.
-/

namespace Barcode

/-- Embeds `clamp(value, min, max) = Math.max(min, Math.min(max, value))`
(`App.jsx` 74-76) at integer type, used for index clamping. -/
def clampI (v lo hi : ℤ) : ℤ := max lo (min hi v)

/-- Embeds `clamp(value)` with the default bounds `min = 0, max = 255`
(`App.jsx` 74-76) on pixel values. -/
def clamp255 (v : ℚ) : ℚ := max 0 (min 255 v)

/-- Embeds `Math.round` on a JS number: round half toward plus infinity. -/
def jsRound (q : ℚ) : ℤ := ⌊q + 1/2⌋

/-- Embeds `clamp(Math.round(g))` as used to index the 256-bin histograms
(`App.jsx` 195, 227, 374). The result is a bin index in `[0, 255]`. -/
def roundClamp (q : ℚ) : ℕ := (clampI (jsRound q) 0 255).toNat

/-- Embeds the trimming of surrounding whitespace done by JS
`String.prototype.trim` on the character list of a string. -/
def jsTrim (l : List Char) : List Char :=
  ((l.dropWhile Char.isWhitespace).reverse.dropWhile Char.isWhitespace).reverse

/-- Embeds `normalizeText(txt)` (`App.jsx` 55-57): `String(txt ?? "").trim()`. -/
def normalizeText (s : String) : String := ⟨jsTrim s.data⟩

/-- Embeds `isLikelyBarcode(value)` (`App.jsx` 59-63):
`normalizeText(value).length >= 6`. -/
def isLikelyBarcode (s : String) : Bool := 6 ≤ (normalizeText s).length

/-! ### C1: the deduplicator `uniqueByRecent` -/

/-- One committed reading: the `{_ts, barcode, ...}` row objects of
`App.jsx`; `ts` is the `_ts = Date.now()` millisecond stamp. -/
structure Row where
  barcode : String
  ts : ℤ

/-- Embeds `uniqueByRecent(rows, newValue, windowMs)` (`App.jsx` 65-72).
`rows` is the stored log in storage order (JS `rows[0]` is the list head);
`Date.now()` is passed explicitly as `now`. -/
def uniqueByRecent (now : ℤ) (rows : List Row) (newValue : String)
    (windowMs : ℤ) : Bool :=
  let v := normalizeText newValue
  match rows with
  | [] => true
  | last :: _ =>
    if normalizeText last.barcode ≠ v then true
    else decide (now - last.ts > windowMs)

/-- Embeds the commit in the scan callback (`App.jsx` 572-579):
`next = [...prev, row]`, i.e. new readings are appended at the END of
the stored log. -/
def commitReading (rows : List Row) (r : Row) : List Row := rows ++ [r]

/-- The deduplication check as the spec words it (spec section 4.6): the value
is compared against the MOST RECENTLY committed reading, which under
`commitReading` is the last element of the stored log. -/
def uniqueByRecentSpec (now : ℤ) (rows : List Row) (newValue : String)
    (windowMs : ℤ) : Bool :=
  match rows.getLast? with
  | none => true
  | some last =>
    if normalizeText last.barcode ≠ normalizeText newValue then true
    else decide (now - last.ts > windowMs)

/-- Claim C1 (code bug evaluation). The log obtained by committing
`"ABC123"` at t=0 and then `"XYZ999"` at t=10000 has `"XYZ999"` as its most
recently committed reading; a new reading `"XYZ999"` at t=10500 (500 ms
later, within the 1200 ms window) must be rejected according to the claim,
but `uniqueByRecent` accepts it (returns `true`), because it compares
against `rows[0]`, the OLDEST committed row, while commits append at the
end of the log. -/
theorem c1_uniqueByRecent_ignores_most_recent_commit :
    (commitReading (commitReading [] ⟨"ABC123", 0⟩) ⟨"XYZ999", 10000⟩).getLast?
        = some ⟨"XYZ999", 10000⟩ ∧
    uniqueByRecent 10500
        (commitReading (commitReading [] ⟨"ABC123", 0⟩) ⟨"XYZ999", 10000⟩)
        "XYZ999" 1200 = true ∧
    uniqueByRecentSpec 10500
        (commitReading (commitReading [] ⟨"ABC123", 0⟩) ⟨"XYZ999", 10000⟩)
        "XYZ999" 1200 = false :=
  ⟨rfl, by decide, by decide⟩

/-! ### C2: phase escalation -/

/-- Embeds the phase computation of `attemptDecode` (unnamed source file,
lines 752-758): `elapsed = now - scanState.current.phaseStartTime`, then
four cascaded threshold tests at 2000, 5000, 8000 and 12000 ms. -/
def phaseOfElapsed (elapsed : ℤ) : ℕ :=
  let p0 : ℕ := 0
  let p1 := if elapsed > 2000 then 1 else p0
  let p2 := if elapsed > 5000 then 2 else p1
  let p3 := if elapsed > 8000 then 3 else p2
  if elapsed > 12000 then 4 else p3

/-- Claim C2: the phase recomputed from elapsed time uses the thresholds
2s, 5s, 8s, 12s; an elapsed time of 6000 ms yields phase 2 and 13000 ms
yields phase 4; and the computed phase is monotonically non-decreasing in
the elapsed time. -/
theorem c2_phase_thresholds_and_monotone :
    phaseOfElapsed 6000 = 2 ∧ phaseOfElapsed 13000 = 4 ∧
    ∀ e₁ e₂ : ℤ, e₁ ≤ e₂ → phaseOfElapsed e₁ ≤ phaseOfElapsed e₂ := by
  refine ⟨by decide, by decide, ?_⟩
  intro e₁ e₂ h
  simp only [phaseOfElapsed]
  split_ifs <;> omega

/-- Witness for C2 at the concrete pair 0 ≤ 6000. -/
theorem c2_phase_thresholds_and_monotone_witness :
    (0 : ℤ) ≤ 6000 ∧ phaseOfElapsed 0 ≤ phaseOfElapsed 6000 :=
  ⟨by decide, c2_phase_thresholds_and_monotone.2.2 0 6000 (by decide)⟩

/-! ### C3: the stability gate -/

/-- Sum of absolute red-channel differences: embeds the loop of
`calculateFrameDiff` (unnamed source file, lines 458-465), which steps the
index by 4 over the RGBA byte arrays, so only bytes at offsets 0, 4, 8, ...
(the red channel) contribute. -/
def redAbsDiffSum : List ℤ → List ℤ → ℤ
  | a0 :: _ :: _ :: _ :: as, b0 :: _ :: _ :: _ :: bs =>
    |a0 - b0| + redAbsDiffSum as bs
  | a0 :: _, b0 :: _ => |a0 - b0|
  | _, _ => 0

/-- Embeds `calculateFrameDiff(dataA, dataB)` (unnamed source file, lines
458-465): returns the sentinel 100 when either array is missing or the
lengths differ, otherwise the mean absolute red-channel difference
`diff / (dataA.length / 4)`. -/
def calculateFrameDiff (dataA dataB : Option (List ℤ)) : ℚ :=
  match dataA, dataB with
  | some a, some b =>
    if a.length ≠ b.length then 100
    else (redAbsDiffSum a b : ℚ) / ((a.length : ℚ) / 4)
  | _, _ => 100

/-- The mutable scan-loop state relevant to the stability gate
(`scanState.current.consecutiveStableFrames` and `.lastFrameData`). -/
structure ScanTickState where
  consecutiveStableFrames : ℕ
  lastFrameData : Option (List ℤ)

/-- Embeds one tick of the stability gate in `scanLoop` (unnamed source
file, lines 719-742): compute the frame difference against the stored
patch, store the current patch, reset the streak and skip decoding when
the difference exceeds 25, otherwise increment the streak and attempt a
decode only when the streak exceeds 3. The returned `Bool` records
whether `attemptDecode` runs this tick. -/
def scanTick (s : ScanTickState) (current : List ℤ) : ScanTickState × Bool :=
  let diff := calculateFrameDiff s.lastFrameData (some current)
  if diff > 25 then
    (⟨0, some current⟩, false)
  else
    let streak := s.consecutiveStableFrames + 1
    (⟨streak, some current⟩, decide (3 < streak))

/-- Claim C3: on every scan-loop tick, a frame difference above the motion
threshold 25 resets the stable-frame streak to 0 and skips decoding;
otherwise the streak is incremented and a decode attempt runs exactly when
the incremented streak exceeds 3. -/
theorem c3_stability_gate (s : ScanTickState) (current : List ℤ) :
    (calculateFrameDiff s.lastFrameData (some current) > 25 →
      (scanTick s current).1.consecutiveStableFrames = 0 ∧
      (scanTick s current).2 = false) ∧
    (¬ calculateFrameDiff s.lastFrameData (some current) > 25 →
      (scanTick s current).1.consecutiveStableFrames
          = s.consecutiveStableFrames + 1 ∧
      ((scanTick s current).2 = true ↔ 3 < s.consecutiveStableFrames + 1)) := by
  constructor <;> intro h <;>
    simp [scanTick, h, decide_eq_true_iff]

/-- Witness for C3: on the very first tick (no stored patch) the sentinel
difference 100 exceeds 25, so the streak resets and no decode runs. -/
theorem c3_stability_gate_witness :
    (scanTick ⟨0, none⟩ []).1.consecutiveStableFrames = 0 ∧
    (scanTick ⟨0, none⟩ []).2 = false :=
  (c3_stability_gate ⟨0, none⟩ []).1 (by decide)

/-! ### C7: the OCR throttle -/

/-- The mutable scan state relevant to OCR throttling
(`scanState.current.ocrBusy` and `.lastOcrTime`), together with a ghost
counter `inFlight` of currently running OCR calls. -/
structure OcrState where
  ocrBusy : Bool
  lastOcrTime : ℤ
  inFlight : ℕ

/-- Embeds the OCR gate of `attemptDecode` (unnamed source file, lines
769-784): an OCR call is initiated on a tick exactly when
`phase >= 4 && !ocrBusy && (now - lastOcrTime > 1800 || !lastOcrTime)`;
initiating sets `ocrBusy = true` and `lastOcrTime = now`. The returned
`Bool` records whether an OCR call was initiated. -/
def ocrTick (s : OcrState) (now : ℤ) (phase : ℕ) : OcrState × Bool :=
  if 4 ≤ phase ∧ s.ocrBusy = false ∧
      (now - s.lastOcrTime > 1800 ∨ s.lastOcrTime = 0) then
    (⟨true, now, s.inFlight + 1⟩, true)
  else (s, false)

/-- Embeds the `.finally(() => ocrBusy = false)` completion handler of the
OCR call chain (unnamed source file, lines 781-783). -/
def ocrComplete (s : OcrState) : OcrState :=
  ⟨false, s.lastOcrTime, s.inFlight - 1⟩

/-- States reachable in the single-threaded loop: from the initial state,
any tick may fire; a completion handler fires only while a call is in
flight (`ocrBusy = true`, as set by the initiating tick). -/
inductive OcrReachable : OcrState → Prop
  | init : OcrReachable ⟨false, 0, 0⟩
  | tick (s : OcrState) (now : ℤ) (phase : ℕ) :
      OcrReachable s → OcrReachable (ocrTick s now phase).1
  | complete (s : OcrState) :
      OcrReachable s → s.ocrBusy = true → OcrReachable (ocrComplete s)

theorem ocrReachable_inFlight (s : OcrState) (h : OcrReachable s) :
    s.inFlight = if s.ocrBusy then 1 else 0 := by
  induction h with
  | init => rfl
  | tick s now phase _ ih =>
    by_cases hc : 4 ≤ phase ∧ s.ocrBusy = false ∧
        (now - s.lastOcrTime > 1800 ∨ s.lastOcrTime = 0)
    · have h0 : s.inFlight = 0 := by rw [ih, hc.2.1]; rfl
      simp [ocrTick, hc, h0]
    · simpa [ocrTick, hc] using ih
  | complete s _ hb ih =>
    have h1 : s.inFlight = 1 := by rw [ih, hb]; rfl
    simp [ocrComplete, h1]

/-- Claim C7: an OCR call is initiated on a tick only if no OCR call is in
flight (`ocrBusy` is false) and at least 1800 ms have elapsed since the
last OCR call started (or none has started yet, `lastOcrTime = 0`);
consequently at most one OCR call is ever in flight in any reachable
state. -/
theorem c7_ocr_throttle :
    (∀ (s : OcrState) (now : ℤ) (phase : ℕ), (ocrTick s now phase).2 = true →
      s.ocrBusy = false ∧ (1800 ≤ now - s.lastOcrTime ∨ s.lastOcrTime = 0)) ∧
    ∀ s : OcrState, OcrReachable s → s.inFlight ≤ 1 := by
  constructor
  · intro s now phase h
    unfold ocrTick at h
    split_ifs at h with hc
    exact ⟨hc.2.1, hc.2.2.imp (fun h18 => le_of_lt h18) id⟩
  · intro s hs
    have := ocrReachable_inFlight s hs
    split_ifs at this <;> omega

/-- Witness for C7 at the initial state and a concrete initiating tick
(`now = 0`, `phase = 4`; the gate passes because `lastOcrTime = 0`). -/
theorem c7_ocr_throttle_witness :
    ((⟨false, 0, 0⟩ : OcrState).ocrBusy = false ∧
      (1800 ≤ (0 : ℤ) - (⟨false, 0, 0⟩ : OcrState).lastOcrTime ∨
        (⟨false, 0, 0⟩ : OcrState).lastOcrTime = 0)) ∧
    (⟨false, 0, 0⟩ : OcrState).inFlight ≤ 1 :=
  ⟨c7_ocr_throttle.1 ⟨false, 0, 0⟩ 0 4 (by decide),
    c7_ocr_throttle.2 ⟨false, 0, 0⟩ OcrReachable.init⟩

/-! ### C8: engine errors are caught, never propagated -/

/-- Result object of a successful external decode call, before
normalization (`res.getText()`, `res.getBarcodeFormat()`). -/
structure RawResult where
  text : String
  format : String

/-- Result object of `tryDecodePasses` in the success case
(`{ok: true, text, format, pass}`); `none` models `{ok: false}`. -/
structure DecodeSuccess where
  text : String
  format : String
  passName : String

/-- Embeds `tryDecodePasses(reader, passes)` (`App.jsx` 741-755). The
external engine call `reader.decodeFromCanvas(pass.canvas)` is modelled by
`decode`, keyed by pass name; a thrown exception is an `Except.error`,
which the `try/catch` of the source turns into "continue with the next
pass". -/
def tryDecodePasses (decode : String → Except String RawResult) :
    List String → Option DecodeSuccess
  | [] => none
  | p :: rest =>
    match decode p with
    | .ok res =>
      let text := normalizeText res.text
      if isLikelyBarcode text then some ⟨text, res.format, p⟩
      else tryDecodePasses decode rest
    | .error _ => tryDecodePasses decode rest

/-- A pass fails: the engine throws, or the decoded text does not pass
`isLikelyBarcode`. -/
def passFails (decode : String → Except String RawResult) (p : String) : Prop :=
  match decode p with
  | .error _ => True
  | .ok res => isLikelyBarcode (normalizeText res.text) = false

/-- The serial pattern prefix `02PI20` of the regex in
`extractSerialFromText` (unnamed source file, line 472). -/
def serialPattern : List Char := ['0', '2', 'P', 'I', '2', '0']

/-- Membership in the regex character class `[A-Z0-9]`. -/
def isSerialChar (c : Char) : Bool :=
  ('A' ≤ c && c ≤ 'Z') || ('0' ≤ c && c ≤ '9')

/-- Embeds the cleaning step of `extractSerialFromText` (unnamed source
file, lines 468-470): uppercase, then strip every character outside
`[A-Z0-9]`. -/
def cleanSerialText (s : String) : List Char :=
  (s.data.map Char.toUpper).filter isSerialChar

/-- Embeds the global regex scan `cleaned.match(/02PI20[A-Z0-9]+/g)`
(unnamed source file, line 472): at each position, a match requires the
prefix `02PI20` followed by AT LEAST one `[A-Z0-9]` character (the `+`
quantifier), extended greedily; on a match the scan resumes after it, and
on a failed position (bare prefix with no following serial character,
where the regex does not match) the engine advances one character. Fuel
bounds the scan by the input length; each step consumes at least one
character. -/
def serialMatchesAux : ℕ → List Char → List (List Char)
  | 0, _ => []
  | _ + 1, [] => []
  | fuel + 1, c :: rest =>
    if serialPattern.isPrefixOf (c :: rest) then
      let run := ((c :: rest).drop 6).takeWhile isSerialChar
      if run = [] then serialMatchesAux fuel rest
      else (serialPattern ++ run) ::
        serialMatchesAux fuel ((c :: rest).drop (serialPattern ++ run).length)
    else serialMatchesAux fuel rest

/-- Embeds `extractSerialFromText(text)` (unnamed source file, lines
467-477): clean, collect the regex matches, return `null` when there are
none, otherwise sort by length descending (stably, as JS `Array.sort`)
and return the first. -/
def extractSerialFromText (s : String) : Option String :=
  let cleaned := cleanSerialText s
  let found := serialMatchesAux cleaned.length cleaned
  match found.mergeSort (fun a b => decide (b.length ≤ a.length)) with
  | [] => none
  | m :: _ => some ⟨m⟩

/-- Outcome object of `tryOcrSerialFromRoi` (unnamed source file, lines
954-959). -/
structure OcrOutcome where
  success : Bool
  serial : Option String
  method : String
  error : Option String

/-- Embeds `tryOcrSerialFromRoi(frameCanvas, bbox)` (unnamed source file,
lines 953-984). The two external `worker.recognize` calls (on the
preprocessed ROI, then on its inversion) are modelled by the two `Except`
inputs carrying the recognized text or the thrown error message; the
source's surrounding `try/catch` turns a throw into
`{success: false, error: e.message || "ocr_error"}`. -/
def tryOcrSerialFromRoi (first second : Except String String) : OcrOutcome :=
  match first with
  | .error e => ⟨false, none, "fail", some (if e = "" then "ocr_error" else e)⟩
  | .ok t1 =>
    match extractSerialFromText t1 with
    | some s => ⟨true, some s, "ocr-roi", none⟩
    | none =>
      match second with
      | .error e =>
        ⟨false, none, "fail", some (if e = "" then "ocr_error" else e)⟩
      | .ok t2 =>
        match extractSerialFromText t2 with
        | some s => ⟨true, some s, "ocr-roi", none⟩
        | none => ⟨false, none, "fail", some ("serial_not_found")⟩

/-- Claim C8: a throwing engine call is never propagated: a pass of
`tryDecodePasses` whose decoder throws simply continues with the next
pass; when every pass fails the result is `{ok: false}` (here `none`);
and `tryOcrSerialFromRoi` returns `{success: false, error}` whenever an
OCR engine call throws, on the first call or on the retry. -/
theorem c8_engine_errors_caught :
    (∀ (decode : String → Except String RawResult) (p e : String)
        (rest : List String), decode p = .error e →
      tryDecodePasses decode (p :: rest) = tryDecodePasses decode rest) ∧
    (∀ (decode : String → Except String RawResult) (passes : List String),
      (∀ p ∈ passes, passFails decode p) →
      tryDecodePasses decode passes = none) ∧
    (∀ (e : String) (second : Except String String),
      (tryOcrSerialFromRoi (.error e) second).success = false ∧
      (tryOcrSerialFromRoi (.error e) second).error ≠ none) ∧
    (∀ t1 e : String, extractSerialFromText t1 = none →
      (tryOcrSerialFromRoi (.ok t1) (.error e)).success = false ∧
      (tryOcrSerialFromRoi (.ok t1) (.error e)).error ≠ none) := by
  refine ⟨?_, ?_, ?_, ?_⟩
  · intro decode p e rest h
    simp [tryDecodePasses, h]
  · intro decode passes hall
    induction passes with
    | nil => rfl
    | cons p rest ih =>
      have hp := hall p (by simp)
      have hrest : ∀ q ∈ rest, passFails decode q :=
        fun q hq => hall q (by simp [hq])
      unfold tryDecodePasses
      unfold passFails at hp
      cases hdec : decode p with
      | error e => simpa [hdec] using ih hrest
      | ok res =>
        rw [hdec] at hp
        simpa [hdec, hp] using ih hrest
  · intro e second
    unfold tryOcrSerialFromRoi
    constructor <;> simp
  · intro t1 e h
    simp [tryOcrSerialFromRoi, h]

/-- Witness for C8 with a decoder that always throws and, for the OCR
retry case, a first recognized text `"02PI20"` — a bare pattern prefix on
which the regex `/02PI20[A-Z0-9]+/g` does not match, so the program
proceeds to the second recognize call and must catch its throw. -/
theorem c8_engine_errors_caught_witness :
    tryDecodePasses (fun _ => .error ("boom")) ["a", "b"]
        = tryDecodePasses (fun _ => .error ("boom")) ["b"] ∧
    tryDecodePasses (fun _ => .error ("boom")) ["a", "b"] = none ∧
    ((tryOcrSerialFromRoi (.error ("crash")) (.ok (""))).success = false ∧
      (tryOcrSerialFromRoi (.error ("crash")) (.ok (""))).error ≠ none) ∧
    ((tryOcrSerialFromRoi (.ok ("02PI20")) (.error ("crash"))).success = false ∧
      (tryOcrSerialFromRoi (.ok ("02PI20")) (.error ("crash"))).error ≠ none) :=
  ⟨c8_engine_errors_caught.1 (fun _ => .error ("boom")) "a" "boom" ["b"] rfl,
    c8_engine_errors_caught.2.1 (fun _ => .error ("boom")) ["a", "b"]
      (fun p _ => by simp [passFails]),
    c8_engine_errors_caught.2.2.1 "crash" (.ok ("")),
    c8_engine_errors_caught.2.2.2 "02PI20" "crash"
      (by simp [extractSerialFromText, cleanSerialText, serialMatchesAux,
        serialPattern, isSerialChar])⟩

/-! ### C4: the running-sum box blur refines the naive mean filter -/

/-- Running sliding-window sum of the box-blur passes (`App.jsx` 115-148):
`lineSlideSum f r x` is the value of the JS variable `sum` at the moment
the loop writes position `x`. It is initialised as the window around
position 0 and then updated, after writing position `x`, by adding the
entering sample `f (x + r + 1)` and subtracting the leaving sample
`f (x - r)`; `f` is the clamped line access. -/
def lineSlideSum (f : ℤ → ℚ) (r : ℕ) : ℕ → ℚ
  | 0 => ∑ k ∈ Finset.range (2 * r + 1), f ((k : ℤ) - r)
  | x + 1 => lineSlideSum f r x + f ((x : ℤ) + r + 1) - f ((x : ℤ) - r)

/-- One 1-D pass of `boxBlur` (`App.jsx` 121-132 and 134-145): the value
`sum / win` written at position `x` of a line of length `len`, with
indices clamped into `[0, len-1]` (edge replication). -/
def boxBlurLine (line : ℤ → ℚ) (len : ℕ) (r : ℕ) (x : ℕ) : ℚ :=
  lineSlideSum (fun i => line (clampI i 0 ((len : ℤ) - 1))) r x / (2 * r + 1)

/-- Row access of a flat grayscale buffer: `rowOf gray w y j` is
`gray[y*w + j]` for an already-clamped column index `j ∈ [0, w-1]`. -/
def rowOf (gray : ℕ → ℚ) (w y : ℕ) : ℤ → ℚ := fun j => gray (y * w + j.toNat)

/-- Embeds `boxBlur(gray, width, height, radius)` (`App.jsx` 115-148):
`radius <= 0` returns an identical copy; otherwise the horizontal
running-sum pass into `tmp`, then the vertical running-sum pass into the
output, both with clamped indices. Buffers are flat index functions with
pixel `(y, x)` at index `y*w + x`. -/
def boxBlur (gray : ℕ → ℚ) (w h : ℕ) (radius : ℤ) : ℕ → ℚ :=
  if radius ≤ 0 then gray
  else
    let r := radius.toNat
    let tmp : ℕ → ℚ := fun i => boxBlurLine (rowOf gray w (i / w)) w r (i % w)
    fun i => boxBlurLine (fun j => tmp (j.toNat * w + i % w)) h r (i / w)

/-- The box blur as the spec words it: for `radius <= 0` an identical
copy (spec section 4.1), otherwise each output pixel is the mean of the
`(2r+1) x (2r+1)` neighborhood with indices clamped to the image (edge
replication, claim C4). -/
def boxBlurSpec (gray : ℕ → ℚ) (w h : ℕ) (radius : ℤ) : ℕ → ℚ :=
  if radius ≤ 0 then gray
  else
    let r := radius.toNat
    fun i =>
      (∑ dy ∈ Finset.range (2 * r + 1), ∑ dx ∈ Finset.range (2 * r + 1),
        gray ((clampI ((i / w : ℕ) + (dy : ℤ) - r) 0 ((h : ℤ) - 1)).toNat * w +
          (clampI ((i % w : ℕ) + (dx : ℤ) - r) 0 ((w : ℤ) - 1)).toNat)) /
      ((2 * r + 1) * (2 * r + 1))

theorem sum_range_shift (g : ℕ → ℚ) (n : ℕ) :
    ∑ k ∈ Finset.range n, g (k + 1)
      = (∑ k ∈ Finset.range n, g k) + g n - g 0 := by
  have h1 := Finset.sum_range_succ' g n
  have h2 := Finset.sum_range_succ g n
  linarith

/-- The sliding sum at `x` equals the direct window sum around `x`. -/
theorem lineSlideSum_eq (f : ℤ → ℚ) (r : ℕ) (x : ℕ) :
    lineSlideSum f r x
      = ∑ k ∈ Finset.range (2 * r + 1), f ((x : ℤ) + k - r) := by
  induction x with
  | zero => simp [lineSlideSum]
  | succ x ih =>
    have step : lineSlideSum f r (x + 1)
        = lineSlideSum f r x + f ((x : ℤ) + r + 1) - f ((x : ℤ) - r) := rfl
    rw [step, ih]
    have lhs_eq : ∑ k ∈ Finset.range (2 * r + 1), f (((x + 1 : ℕ) : ℤ) + k - r)
        = ∑ k ∈ Finset.range (2 * r + 1), f ((x : ℤ) + ((k + 1 : ℕ) : ℤ) - r) := by
      refine Finset.sum_congr rfl fun k _ => ?_
      congr 1
      push_cast
      ring
    rw [lhs_eq, sum_range_shift (fun k => f ((x : ℤ) + (k : ℤ) - r)) (2 * r + 1)]
    have e1 : (x : ℤ) + ((2 * r + 1 : ℕ) : ℤ) - r = (x : ℤ) + r + 1 := by
      push_cast; ring
    have e2 : (x : ℤ) + ((0 : ℕ) : ℤ) - r = (x : ℤ) - r := by push_cast; ring
    rw [e1, e2]

/-- Closed form of one blur pass: the clamped window mean. -/
theorem boxBlurLine_eq (line : ℤ → ℚ) (len r x : ℕ) :
    boxBlurLine line len r x
      = (∑ k ∈ Finset.range (2 * r + 1),
          line (clampI ((x : ℤ) + k - r) 0 ((len : ℤ) - 1))) / (2 * r + 1) := by
  rw [boxBlurLine, lineSlideSum_eq]

/-- Claim C4: the running-sum `boxBlur` implementation is an identical
copy for every `radius <= 0`, and for any radius it agrees pixelwise with
the naive separable mean filter with edge replication (`boxBlurSpec`)
whenever the width is positive. -/
theorem c4_boxBlur_refines_mean_filter (gray : ℕ → ℚ) (w h : ℕ)
    (radius : ℤ) :
    (radius ≤ 0 → boxBlur gray w h radius = gray) ∧
    (0 < w → ∀ i, boxBlur gray w h radius i = boxBlurSpec gray w h radius i) := by
  constructor
  · intro hr
    simp [boxBlur, hr]
  · intro hw i
    by_cases hr : radius ≤ 0
    · simp [boxBlur, boxBlurSpec, hr]
    · simp only [boxBlur, boxBlurSpec, if_neg hr]
      set r := radius.toNat with hrdef
      rw [boxBlurLine_eq]
      have hmod : i % w < w := Nat.mod_lt i hw
      have hterm : ∀ dy ∈ Finset.range (2 * r + 1),
          (fun j => boxBlurLine
              (rowOf gray w ((j.toNat * w + i % w) / w)) w r
              ((j.toNat * w + i % w) % w))
            (clampI (((i / w : ℕ) : ℤ) + (dy : ℤ) - r) 0 ((h : ℤ) - 1))
          = (∑ dx ∈ Finset.range (2 * r + 1),
              gray ((clampI (((i / w : ℕ) : ℤ) + (dy : ℤ) - r) 0
                    ((h : ℤ) - 1)).toNat * w +
                (clampI (((i % w : ℕ) : ℤ) + (dx : ℤ) - r) 0
                    ((w : ℤ) - 1)).toNat)) / (2 * r + 1) := by
        intro dy _
        dsimp only
        set cy := (clampI (((i / w : ℕ) : ℤ) + (dy : ℤ) - r) 0
            ((h : ℤ) - 1)).toNat with hcy
        have hdiv : (cy * w + i % w) / w = cy := by
          rw [mul_comm, Nat.mul_add_div hw, Nat.div_eq_of_lt hmod, Nat.add_zero]
        have hmodeq : (cy * w + i % w) % w = i % w := by
          rw [mul_comm, Nat.mul_add_mod, Nat.mod_eq_of_lt hmod]
        rw [hdiv, hmodeq, boxBlurLine_eq]
        simp only [rowOf]
      rw [Finset.sum_congr rfl hterm, ← Finset.sum_div, div_div]

/-- Witness for C4 on a constant 2x2 buffer, at radius 0 and radius 1. -/
theorem c4_boxBlur_refines_mean_filter_witness :
    boxBlur (fun _ => 7) 2 2 0 = (fun _ => (7 : ℚ)) ∧
    boxBlur (fun _ => 7) 2 2 1 3 = boxBlurSpec (fun _ => 7) 2 2 1 3 :=
  ⟨(c4_boxBlur_refines_mean_filter (fun _ => 7) 2 2 0).1 (by decide),
    (c4_boxBlur_refines_mean_filter (fun _ => 7) 2 2 1).2 (by decide) 3⟩

/-! ### C5, C10: the Otsu threshold -/

/-- Embeds the histogram build `hist[clamp(Math.round(gray[i]))] += 1`
(`App.jsx` 373-374): bin `v` holds the number of samples that round and
clamp to `v`. -/
def histOf (gray : List ℚ) : ℕ → ℕ := fun v => (gray.map roundClamp).count v

/-- Embeds the main loop of `otsu(gray)` (`App.jsx` 381-394). The
arguments mirror the JS mutable variables: current bin `i`, remaining
iterations `n` (the fuel `256 - i`), `wB`, `sumB`, `maxVar` and
`threshold`. The `continue` on `!wB`, the `break` on `!wF` and the strict
improvement test `v > maxVar` are kept exactly. -/
def otsuAux (hist : ℕ → ℕ) (total : ℕ) (sum : ℚ) :
    ℕ → ℕ → ℚ → ℚ → ℚ → ℕ → ℕ
  | _, 0, _, _, _, t => t
  | i, n + 1, wB, sumB, maxVar, t =>
    let wB' := wB + (hist i : ℚ)
    if wB' = 0 then otsuAux hist total sum (i + 1) n wB' sumB maxVar t
    else if (total : ℚ) - wB' = 0 then t
    else
      let sumB' := sumB + (i : ℚ) * (hist i : ℚ)
      let mB := sumB' / wB'
      let mF := (sum - sumB') / ((total : ℚ) - wB')
      let v := wB' * ((total : ℚ) - wB') * ((mB - mF) * (mB - mF))
      if v > maxVar then otsuAux hist total sum (i + 1) n wB' sumB' v i
      else otsuAux hist total sum (i + 1) n wB' sumB' maxVar t

/-- Embeds `otsu(gray)` (`App.jsx` 372-396): histogram, weighted sum
`sum`, then the 256-bin loop starting from `wB = sumB = maxVar = 0` and
`threshold = 127`. -/
def otsu (gray : List ℚ) : ℕ :=
  let hist := histOf gray
  let sum := ∑ i ∈ Finset.range 256, (i : ℚ) * (hist i : ℚ)
  otsuAux hist gray.length sum 0 256 0 0 0 127

theorem roundClamp_le_255 (q : ℚ) : roundClamp q ≤ 255 := by
  have h : clampI (jsRound q) 0 255 ≤ 255 := by
    rw [clampI]
    exact max_le (by norm_num) (min_le_left _ _)
  calc roundClamp q = (clampI (jsRound q) 0 255).toNat := rfl
    _ ≤ (255 : ℤ).toNat := Int.toNat_le_toNat h
    _ = 255 := rfl

theorem roundClamp_natCast (n : ℕ) (hn : n ≤ 255) : roundClamp (n : ℚ) = n := by
  have hfloor : jsRound ((n : ℕ) : ℚ) = n := by
    rw [jsRound, Int.floor_eq_iff]
    constructor <;> push_cast <;> linarith
  have h1 : min 255 (n : ℤ) = n := min_eq_right (by exact_mod_cast hn)
  have h2 : max 0 (n : ℤ) = (n : ℤ) := max_eq_right (by positivity)
  rw [roundClamp, hfloor, clampI, h1, h2, Int.toNat_natCast]

/-- While `wB` is still zero the loop body only takes the `continue`
branch: over a run of `k` empty bins the state is unchanged. -/
theorem otsuAux_skip_zero_wB (hist : ℕ → ℕ) (total : ℕ) (sum : ℚ)
    (i k m : ℕ) (sumB maxVar : ℚ) (t : ℕ)
    (hz : ∀ j, i ≤ j → j < i + k → hist j = 0) :
    otsuAux hist total sum i (k + m) 0 sumB maxVar t
      = otsuAux hist total sum (i + k) m 0 sumB maxVar t := by
  induction k generalizing i with
  | zero => simp
  | succ k ih =>
    have hi : hist i = 0 := hz i le_rfl (by omega)
    have e : k + 1 + m = (k + m) + 1 := by omega
    rw [e]
    have step : otsuAux hist total sum i ((k + m) + 1) 0 sumB maxVar t
        = otsuAux hist total sum (i + 1) (k + m) 0 sumB maxVar t := by
      simp [otsuAux, hi]
    rw [step, ih (i + 1) (fun j h1 h2 => hz j (by omega) (by omega))]
    have e2 : i + 1 + k = i + (k + 1) := by omega
    rw [e2]

/-- Over a run of `k` empty bins during which the current between-class
variance does not beat `maxVar`, the loop state is unchanged. -/
theorem otsuAux_skip_no_improve (hist : ℕ → ℕ) (total : ℕ) (sum : ℚ)
    (i k m : ℕ) (wB sumB maxVar : ℚ) (t : ℕ)
    (hz : ∀ j, i ≤ j → j < i + k → hist j = 0)
    (hwB : ¬ wB = 0)
    (hwF : ¬ (total : ℚ) - wB = 0)
    (hv : wB * ((total : ℚ) - wB) *
        ((sumB / wB - (sum - sumB) / ((total : ℚ) - wB)) *
          (sumB / wB - (sum - sumB) / ((total : ℚ) - wB))) ≤ maxVar) :
    otsuAux hist total sum i (k + m) wB sumB maxVar t
      = otsuAux hist total sum (i + k) m wB sumB maxVar t := by
  induction k generalizing i with
  | zero => simp
  | succ k ih =>
    have hi : hist i = 0 := hz i le_rfl (by omega)
    have e : k + 1 + m = (k + m) + 1 := by omega
    rw [e]
    have step : otsuAux hist total sum i ((k + m) + 1) wB sumB maxVar t
        = otsuAux hist total sum (i + 1) (k + m) wB sumB maxVar t := by
      simp only [otsuAux, hi, Nat.cast_zero, add_zero, mul_zero]
      rw [if_neg hwB, if_neg hwF, if_neg (not_lt.mpr hv)]
    rw [step, ih (i + 1) (fun j h1 h2 => hz j (by omega) (by omega))]
    have e2 : i + 1 + k = i + (k + 1) := by omega
    rw [e2]

/-- One loop iteration that hits the `break`: `wB` becomes nonzero and
`wF = total - wB` is zero, so the current threshold is returned. -/
theorem otsuAux_step_break (hist : ℕ → ℕ) (total : ℕ) (sum : ℚ)
    (i n : ℕ) (wB sumB maxVar : ℚ) (t : ℕ)
    (h1 : ¬ wB + (hist i : ℚ) = 0)
    (h2 : (total : ℚ) - (wB + (hist i : ℚ)) = 0) :
    otsuAux hist total sum i (n + 1) wB sumB maxVar t = t := by
  simp only [otsuAux]
  rw [if_neg h1, if_pos h2]

/-- One loop iteration that strictly improves the between-class variance:
the threshold moves to the current bin `i`. -/
theorem otsuAux_step_improve (hist : ℕ → ℕ) (total : ℕ) (sum : ℚ)
    (i n : ℕ) (wB sumB maxVar : ℚ) (t : ℕ)
    (h1 : ¬ wB + (hist i : ℚ) = 0)
    (h2 : ¬ (total : ℚ) - (wB + (hist i : ℚ)) = 0)
    (h3 : (wB + (hist i : ℚ)) * ((total : ℚ) - (wB + (hist i : ℚ))) *
        (((sumB + (i : ℚ) * (hist i : ℚ)) / (wB + (hist i : ℚ))
            - (sum - (sumB + (i : ℚ) * (hist i : ℚ)))
              / ((total : ℚ) - (wB + (hist i : ℚ))))
          * ((sumB + (i : ℚ) * (hist i : ℚ)) / (wB + (hist i : ℚ))
            - (sum - (sumB + (i : ℚ) * (hist i : ℚ)))
              / ((total : ℚ) - (wB + (hist i : ℚ))))) > maxVar) :
    otsuAux hist total sum i (n + 1) wB sumB maxVar t
      = otsuAux hist total sum (i + 1) n (wB + (hist i : ℚ))
          (sumB + (i : ℚ) * (hist i : ℚ))
          ((wB + (hist i : ℚ)) * ((total : ℚ) - (wB + (hist i : ℚ))) *
            (((sumB + (i : ℚ) * (hist i : ℚ)) / (wB + (hist i : ℚ))
                - (sum - (sumB + (i : ℚ) * (hist i : ℚ)))
                  / ((total : ℚ) - (wB + (hist i : ℚ))))
              * ((sumB + (i : ℚ) * (hist i : ℚ)) / (wB + (hist i : ℚ))
                - (sum - (sumB + (i : ℚ) * (hist i : ℚ)))
                  / ((total : ℚ) - (wB + (hist i : ℚ)))))) i := by
  simp only [otsuAux]
  rw [if_neg h1, if_neg h2, if_pos h3]

/-- Replacing the rational state components by equal values. -/
theorem otsuAux_congr_state (hist : ℕ → ℕ) (total : ℕ) (sum : ℚ) (i n : ℕ)
    (wB wB2 sumB sumB2 maxVar maxVar2 : ℚ) (t : ℕ)
    (h1 : wB = wB2) (h2 : sumB = sumB2) (h3 : maxVar = maxVar2) :
    otsuAux hist total sum i n wB sumB maxVar t
      = otsuAux hist total sum i n wB2 sumB2 maxVar2 t := by
  rw [h1, h2, h3]

/-- The synthetic bimodal buffer of the spec's testable property: 1000
samples at intensity 20 and 1000 samples at intensity 220. -/
def otsuBimodal : List ℚ := List.replicate 1000 20 ++ List.replicate 1000 220

theorem histOf_bimodal (v : ℕ) :
    histOf otsuBimodal v = if v = 20 then 1000 else if v = 220 then 1000 else 0 := by
  have h20 : roundClamp (20 : ℚ) = 20 := by
    have := roundClamp_natCast 20 (by omega)
    norm_num at this
    exact this
  have h220 : roundClamp (220 : ℚ) = 220 := by
    have := roundClamp_natCast 220 (by omega)
    norm_num at this
    exact this
  simp only [histOf, otsuBimodal, List.map_append, List.map_replicate,
    List.count_append, List.count_replicate, h20, h220, beq_iff_eq]
  split_ifs <;> omega

theorem otsuBimodal_sum :
    (∑ i ∈ Finset.range 256, (i : ℚ) * (histOf otsuBimodal i : ℚ)) = 240000 := by
  have hterm : ∀ i ∈ Finset.range 256, (i : ℚ) * (histOf otsuBimodal i : ℚ)
      = (if i = 20 then (20000 : ℚ) else 0) + (if i = 220 then (220000 : ℚ) else 0) := by
    intro i _
    rw [histOf_bimodal i]
    by_cases h1 : i = 20 <;> by_cases h2 : i = 220 <;>
      simp [h1, h2] <;> norm_num [h1, h2]
  rw [Finset.sum_congr rfl hterm, Finset.sum_add_distrib,
    Finset.sum_ite_eq' (Finset.range 256) 20 (fun _ => (20000 : ℚ)),
    Finset.sum_ite_eq' (Finset.range 256) 220 (fun _ => (220000 : ℚ))]
  norm_num

/-- The Otsu loop on the bimodal buffer: bins 0-19 are skipped with
`wB = 0`; bin 20 strictly improves the variance and sets the threshold to
20; bins 21-219 are empty and never improve; bin 220 makes `wF = 0` and
breaks, returning 20. -/
theorem otsu_bimodal_val : otsu otsuBimodal = 20 := by
  have hlen : otsuBimodal.length = 2000 := by
    rw [otsuBimodal, List.length_append, List.length_replicate,
      List.length_replicate]
  have h20 : histOf otsuBimodal 20 = 1000 := by rw [histOf_bimodal]; norm_num
  have h220 : histOf otsuBimodal 220 = 1000 := by rw [histOf_bimodal]; norm_num
  have hzA : ∀ j, 0 ≤ j → j < 0 + 20 → histOf otsuBimodal j = 0 := by
    intro j _ hj
    rw [histOf_bimodal, if_neg (by omega), if_neg (by omega)]
  have hzB : ∀ j, 21 ≤ j → j < 21 + 199 → histOf otsuBimodal j = 0 := by
    intro j h1 h2
    rw [histOf_bimodal, if_neg (by omega), if_neg (by omega)]
  simp only [otsu, hlen, otsuBimodal_sum]
  rw [show (256 : ℕ) = 20 + 236 from rfl,
    otsuAux_skip_zero_wB (histOf otsuBimodal) 2000 240000 0 20 236 0 0 127 hzA,
    show (0 + 20 : ℕ) = 20 from rfl, show (236 : ℕ) = 235 + 1 from rfl,
    otsuAux_step_improve (histOf otsuBimodal) 2000 240000 20 235 0 0 0 127
      (by rw [h20]; norm_num) (by rw [h20]; norm_num) (by rw [h20]; norm_num),
    otsuAux_congr_state (histOf otsuBimodal) 2000 240000 (20 + 1) 235
      _ 1000 _ 20000 _ 40000000000 20
      (by rw [h20]; norm_num) (by rw [h20]; norm_num) (by rw [h20]; norm_num),
    show (20 + 1 : ℕ) = 21 from rfl, show (235 : ℕ) = 199 + 36 from rfl,
    otsuAux_skip_no_improve (histOf otsuBimodal) 2000 240000 21 199 36
      1000 20000 40000000000 20 hzB (by norm_num) (by norm_num) (by norm_num),
    show (21 + 199 : ℕ) = 220 from rfl, show (36 : ℕ) = 35 + 1 from rfl,
    otsuAux_step_break (histOf otsuBimodal) 2000 240000 220 35
      1000 20000 40000000000 20
      (by rw [h220]; norm_num) (by rw [h220]; norm_num)]

/-- Claim C5 (counterexample): on the synthetic bimodal buffer, the
threshold returned by `otsu` is NOT strictly between 20 and 220 (it is
exactly 20, the lower mode). -/
theorem c5_otsu_bimodal_not_strictly_between :
    ¬ (20 < otsu otsuBimodal ∧ otsu otsuBimodal < 220) := by
  rw [otsu_bimodal_val]
  omega

/-- Claim C5 (amended): on the synthetic bimodal buffer of 1000 samples
at 20 and 1000 samples at 220, `otsu` returns exactly 20 — the lower
mode, which is the first bin maximizing the between-class variance when
scanning ascending; the threshold separates the two modes as `[0,20]`
versus `(20,255]` but is not strictly greater than 20. -/
theorem c5_otsu_bimodal_amended : otsu otsuBimodal = 20 := otsu_bimodal_val

/-- Claim C10: on a non-empty buffer whose samples all round-and-clamp to
one single intensity `c`, the Otsu loop reaches bin `c` with `wB = 0`,
there finds `wF = 0` and breaks, returning the default threshold 127,
regardless of `c`. -/
theorem c10_otsu_constant_returns_127 (gray : List ℚ) (c : ℕ)
    (hne : gray ≠ []) (hc : ∀ x ∈ gray, roundClamp x = c) :
    otsu gray = 127 := by
  have hc255 : c ≤ 255 := by
    obtain ⟨x, hx⟩ := List.exists_mem_of_ne_nil gray hne
    have h := hc x hx
    rw [← h]
    exact roundClamp_le_255 x
  have hlen0 : gray.length ≠ 0 := by
    have := List.length_pos.mpr hne
    omega
  have hmap : gray.map roundClamp = List.replicate gray.length c := by
    rw [List.eq_replicate_iff]
    refine ⟨List.length_map gray roundClamp, ?_⟩
    intro b hb
    obtain ⟨x, hx, hbx⟩ := List.mem_map.mp hb
    rw [← hbx]
    exact hc x hx
  have hhist : ∀ v, histOf gray v = if v = c then gray.length else 0 := by
    intro v
    rw [histOf, hmap, List.count_replicate]
    by_cases h : v = c
    · subst h
      simp
    · have h2 : ¬ (c == v) = true := by
        simp only [beq_iff_eq]
        exact fun hh => h hh.symm
      rw [if_neg h2, if_neg h]
  have hzA : ∀ j, 0 ≤ j → j < 0 + c → histOf gray j = 0 := by
    intro j _ hj
    rw [hhist j, if_neg (by omega)]
  have hcc : histOf gray c = gray.length := by rw [hhist c, if_pos rfl]
  simp only [otsu]
  set S := ∑ i ∈ Finset.range 256, (i : ℚ) * (histOf gray i : ℚ) with hS
  rw [show (256 : ℕ) = c + (256 - c) from by omega,
    otsuAux_skip_zero_wB (histOf gray) gray.length S 0 c (256 - c) 0 0 127 hzA,
    Nat.zero_add, show (256 - c : ℕ) = (255 - c) + 1 from by omega,
    otsuAux_step_break (histOf gray) gray.length S c (255 - c) 0 0 0 127
      (by
        rw [hcc]
        simpa using hlen0)
      (by rw [hcc]; ring)]

/-- Witness for C10 at the concrete two-sample buffer `[5, 5]`. -/
theorem c10_otsu_constant_returns_127_witness : otsu [(5 : ℚ), 5] = 127 :=
  c10_otsu_constant_returns_127 [(5 : ℚ), 5] 5 (by simp)
    (by
      intro x hx
      have h5 : roundClamp (5 : ℚ) = 5 := by
        have := roundClamp_natCast 5 (by omega)
        norm_num at this
        exact this
      rcases List.mem_cons.mp hx with h | h
      · rw [h, h5]
      · simp at h
        rw [h, h5])

/-! ### C6, C9: the remaining enhancement primitives -/

/-- Running cumulative histogram: `cumsum hist v` is the value of the JS
variable `sum` after adding bins `0..v`, as built in `stretch`
(`App.jsx` 199-216), `histogramEqualize` (`App.jsx` 228-233) and read as
`cdf[v]`. -/
def cumsum (hist : ℕ → ℕ) (v : ℕ) : ℚ :=
  ∑ j ∈ Finset.range (v + 1), (hist j : ℚ)

/-- Embeds `median3x3(gray, width, height)` (`App.jsx` 150-168): the 9
clamped neighborhood samples are pushed in row-major order, sorted
ascending (JS `values.sort((a, b) => a - b)`), and the 5th (`values[4]`)
is taken. -/
def median3x3 (gray : ℕ → ℚ) (w h : ℕ) : ℕ → ℚ := fun i =>
  let y := i / w
  let x := i % w
  let cy : ℤ → ℕ := fun dy => (clampI ((y : ℤ) + dy) 0 ((h : ℤ) - 1)).toNat
  let cx : ℤ → ℕ := fun dx => (clampI ((x : ℤ) + dx) 0 ((w : ℤ) - 1)).toNat
  let values : List ℚ :=
    [gray (cy (-1) * w + cx (-1)), gray (cy (-1) * w + cx 0),
      gray (cy (-1) * w + cx 1),
      gray (cy 0 * w + cx (-1)), gray (cy 0 * w + cx 0),
      gray (cy 0 * w + cx 1),
      gray (cy 1 * w + cx (-1)), gray (cy 1 * w + cx 0),
      gray (cy 1 * w + cx 1)]
  (values.mergeSort (fun a b => decide (a ≤ b))).getD 4 0

/-- Embeds `unsharp(gray, width, height, radius, amount)` (`App.jsx`
170-177): `clamp(gray[i] + (gray[i] - blur[i]) * amount)`. -/
def unsharp (gray : ℕ → ℚ) (w h : ℕ) (radius : ℤ) (amount : ℚ) : ℕ → ℚ :=
  fun i => clamp255 (gray i + (gray i - boxBlur gray w h radius i) * amount)

/-- Embeds `sobelX(gray, width, height)` (`App.jsx` 179-191): the
absolute horizontal Sobel response on interior pixels, 0 on the border
ring (the output array is zero-initialised and the loops run over
`1 <= y < h-1`, `1 <= x < w-1`). -/
def sobelX (gray : ℕ → ℚ) (w h : ℕ) : ℕ → ℚ := fun i =>
  let y := i / w
  let x := i % w
  if 1 ≤ y ∧ y < h - 1 ∧ 1 ≤ x ∧ x < w - 1 then
    |(-gray ((y - 1) * w + (x - 1)) - 2 * gray (y * w + (x - 1))
        - gray ((y + 1) * w + (x - 1))
      + gray ((y - 1) * w + (x + 1)) + 2 * gray (y * w + (x + 1))
      + gray ((y + 1) * w + (x + 1)))|
  else 0

/-- Embeds `stretch(gray, low, high)` (`App.jsx` 193-223): `a` is the
first bin whose cumulative count reaches `total*low` (defaulting to 0),
`b` the first reaching `total*high` (defaulting to 255),
`den = max(1, b - a)`, and each sample maps through
`clamp(((g - a) / den) * 255)`. -/
def stretch (gray : List ℚ) (low high : ℚ) : List ℚ :=
  let hist := histOf gray
  let total := gray.length
  let aT := (total : ℚ) * low
  let bT := (total : ℚ) * high
  let a := ((List.range 256).find? (fun i2 => decide (aT ≤ cumsum hist i2))).getD 0
  let b := ((List.range 256).find? (fun i2 => decide (bT ≤ cumsum hist i2))).getD 255
  let den := max 1 ((b : ℚ) - (a : ℚ))
  gray.map (fun g => clamp255 ((g - (a : ℚ)) / den * 255))

/-- Embeds the `cdfMin` computation of `histogramEqualize` (`App.jsx`
234-240): the first positive cumulative bin value, 0 when the histogram
is entirely empty. -/
def cdfMinOf (hist : ℕ → ℕ) : ℚ :=
  match (List.range 256).find? (fun i2 => decide (0 < cumsum hist i2)) with
  | some i2 => cumsum hist i2
  | none => 0

/-- Embeds `histogramEqualize(gray)` (`App.jsx` 225-248): CDF-based
equalization with `den = gray.length - cdfMin || 1` and each sample
mapped through `clamp(((cdf[v] - cdfMin) / den) * 255)` for its rounded
clamped bin `v`. -/
def histogramEqualize (gray : List ℚ) : List ℚ :=
  let hist := histOf gray
  let cdfMin := cdfMinOf hist
  let den := if (gray.length : ℚ) - cdfMin = 0 then 1
    else (gray.length : ℚ) - cdfMin
  gray.map (fun g => clamp255 ((cumsum hist (roundClamp g) - cdfMin) / den * 255))

/-- Embeds `directionalSharpenVertical(gray, width, height, strength)`
(`App.jsx` 250-261): `clamp(c*(1 + 2*strength) - (l + r)*strength)` with
horizontally clamped neighbors. -/
def directionalSharpenVertical (gray : ℕ → ℚ) (w h : ℕ) (strength : ℚ) :
    ℕ → ℚ := fun i =>
  let y := i / w
  let x := i % w
  let l := gray (y * w + (clampI ((x : ℤ) - 1) 0 ((w : ℤ) - 1)).toNat)
  let c := gray (y * w + x)
  let r := gray (y * w + (clampI ((x : ℤ) + 1) 0 ((w : ℤ) - 1)).toNat)
  clamp255 (c * (1 + 2 * strength) - (l + r) * strength)

theorem clamp255_mem (v : ℚ) : 0 ≤ clamp255 v ∧ clamp255 v ≤ 255 :=
  ⟨le_max_left 0 _, max_le (by norm_num) (min_le_left _ _)⟩

theorem clamp255_mono {a b : ℚ} (h : a ≤ b) : clamp255 a ≤ clamp255 b :=
  max_le_max le_rfl (min_le_min le_rfl h)

theorem boxBlurLine_bounds (line : ℤ → ℚ) (len r x : ℕ)
    (hline : ∀ j, 0 ≤ line j ∧ line j ≤ 255) :
    0 ≤ boxBlurLine line len r x ∧ boxBlurLine line len r x ≤ 255 := by
  rw [boxBlurLine_eq]
  have hwin : (0 : ℚ) < 2 * r + 1 := by positivity
  constructor
  · apply div_nonneg _ (le_of_lt hwin)
    exact Finset.sum_nonneg fun k _ => (hline _).1
  · rw [div_le_iff hwin]
    calc (∑ k ∈ Finset.range (2 * r + 1),
          line (clampI ((x : ℤ) + k - r) 0 ((len : ℤ) - 1)))
        ≤ ∑ _k ∈ Finset.range (2 * r + 1), (255 : ℚ) :=
          Finset.sum_le_sum fun k _ => (hline _).2
      _ = 255 * (2 * r + 1) := by
          rw [Finset.sum_const, Finset.card_range]
          push_cast
          ring

theorem boxBlur_inRange (gray : ℕ → ℚ) (w h : ℕ) (radius : ℤ)
    (hg : ∀ i, 0 ≤ gray i ∧ gray i ≤ 255) :
    ∀ i, 0 ≤ boxBlur gray w h radius i ∧ boxBlur gray w h radius i ≤ 255 := by
  intro i
  simp only [boxBlur]
  split_ifs with hr
  · exact hg i
  · refine boxBlurLine_bounds _ h radius.toNat (i / w) fun j => ?_
    exact boxBlurLine_bounds _ w radius.toNat _ fun j2 => hg _

theorem mergeSort_getD_mem (l : List ℚ) (cmp : ℚ → ℚ → Bool) (n : ℕ) (d : ℚ)
    (hn : n < l.length) : (l.mergeSort cmp).getD n d ∈ l := by
  have hlen : n < (l.mergeSort cmp).length := by
    rw [List.length_mergeSort]
    exact hn
  have heq : (l.mergeSort cmp).getD n d = (l.mergeSort cmp)[n] := by
    rw [List.getD_eq_getElem?_getD, List.getElem?_eq_getElem hlen]
    rfl
  rw [heq]
  exact (List.mergeSort_perm l cmp).mem_iff.mp (List.getElem_mem hlen)

theorem mergeSort_getD_bounds (l : List ℚ) (cmp : ℚ → ℚ → Bool) (n : ℕ)
    (d : ℚ) (hn : n < l.length) (hl : ∀ x ∈ l, 0 ≤ x ∧ x ≤ 255) :
    0 ≤ (l.mergeSort cmp).getD n d ∧ (l.mergeSort cmp).getD n d ≤ 255 :=
  hl _ (mergeSort_getD_mem l cmp n d hn)

theorem median3x3_inRange (gray : ℕ → ℚ) (w h : ℕ)
    (hg : ∀ i, 0 ≤ gray i ∧ gray i ≤ 255) :
    ∀ i, 0 ≤ median3x3 gray w h i ∧ median3x3 gray w h i ≤ 255 := by
  intro i
  simp only [median3x3]
  refine mergeSort_getD_bounds _ _ 4 0 (by simp) ?_
  intro x hx
  simp only [List.mem_cons, List.not_mem_nil, or_false] at hx
  rcases hx with hv | hv | hv | hv | hv | hv | hv | hv | hv <;>
    · rw [hv]
      exact hg _

theorem unsharp_inRange (gray : ℕ → ℚ) (w h : ℕ) (radius : ℤ) (amount : ℚ) :
    ∀ i, 0 ≤ unsharp gray w h radius amount i ∧
      unsharp gray w h radius amount i ≤ 255 :=
  fun i => clamp255_mem _

theorem sobelX_bounds (gray : ℕ → ℚ) (w h : ℕ)
    (hg : ∀ i, 0 ≤ gray i ∧ gray i ≤ 255) :
    ∀ i, 0 ≤ sobelX gray w h i ∧ sobelX gray w h i ≤ 1020 := by
  intro i
  simp only [sobelX]
  split_ifs with hcond
  · refine ⟨abs_nonneg _, ?_⟩
    rw [abs_le]
    obtain ⟨p1, q1⟩ := hg ((i / w - 1) * w + (i % w - 1))
    obtain ⟨p2, q2⟩ := hg (i / w * w + (i % w - 1))
    obtain ⟨p3, q3⟩ := hg ((i / w + 1) * w + (i % w - 1))
    obtain ⟨p4, q4⟩ := hg ((i / w - 1) * w + (i % w + 1))
    obtain ⟨p5, q5⟩ := hg (i / w * w + (i % w + 1))
    obtain ⟨p6, q6⟩ := hg ((i / w + 1) * w + (i % w + 1))
    constructor <;> linarith
  · norm_num

theorem stretch_inRange (gray : List ℚ) (low high : ℚ) :
    ∀ x ∈ stretch gray low high, 0 ≤ x ∧ x ≤ 255 := by
  intro x hx
  simp only [stretch, List.mem_map] at hx
  obtain ⟨g, _, rfl⟩ := hx
  exact clamp255_mem _

theorem histogramEqualize_inRange (gray : List ℚ) :
    ∀ x ∈ histogramEqualize gray, 0 ≤ x ∧ x ≤ 255 := by
  intro x hx
  simp only [histogramEqualize, List.mem_map] at hx
  obtain ⟨g, _, rfl⟩ := hx
  exact clamp255_mem _

theorem directionalSharpenVertical_inRange (gray : ℕ → ℚ) (w h : ℕ)
    (strength : ℚ) :
    ∀ i, 0 ≤ directionalSharpenVertical gray w h strength i ∧
      directionalSharpenVertical gray w h strength i ≤ 255 :=
  fun i => clamp255_mem _

/-- Claim C6 (counterexample): `sobelX` does NOT keep samples in
`[0, 255]`: on the 3x3 buffer whose right column is 255 and the rest 0
(all samples in range), the center output is 1020. -/
theorem c6_sobelX_exceeds_255 :
    ¬ ∀ gray : ℕ → ℚ, (∀ i, 0 ≤ gray i ∧ gray i ≤ 255) →
        ∀ i, 0 ≤ sobelX gray 3 3 i ∧ sobelX gray 3 3 i ≤ 255 := by
  intro hall
  have hin : ∀ i, 0 ≤ (fun i2 => if i2 % 3 = 2 then (255 : ℚ) else 0) i ∧
      (fun i2 => if i2 % 3 = 2 then (255 : ℚ) else 0) i ≤ 255 := by
    intro i
    dsimp only
    split_ifs <;> norm_num
  have h := (hall (fun i2 => if i2 % 3 = 2 then (255 : ℚ) else 0) hin 4).2
  have hval : sobelX (fun i2 => if i2 % 3 = 2 then (255 : ℚ) else 0) 3 3 4
      = 1020 := by
    norm_num [sobelX]
  rw [hval] at h
  norm_num at h

/-- Claim C6 (amended): on buffers with all samples in `[0, 255]`, the
primitives `boxBlur`, `median3x3`, `unsharp`, `stretch`,
`histogramEqualize` and `directionalSharpenVertical` produce buffers with
all samples in `[0, 255]`; `sobelX` instead produces samples in
`[0, 1020]` (four times 255), its outputs being renormalized only by the
histogram stretch applied after it in the pipeline. -/
theorem c6_primitives_ranges (gray : ℕ → ℚ) (grayL : List ℚ) (w h : ℕ)
    (radius : ℤ) (amount strength low high : ℚ)
    (hg : ∀ i, 0 ≤ gray i ∧ gray i ≤ 255)
    (hgL : ∀ x ∈ grayL, 0 ≤ x ∧ x ≤ 255) :
    (∀ i, 0 ≤ boxBlur gray w h radius i ∧ boxBlur gray w h radius i ≤ 255) ∧
    (∀ i, 0 ≤ median3x3 gray w h i ∧ median3x3 gray w h i ≤ 255) ∧
    (∀ i, 0 ≤ unsharp gray w h radius amount i ∧
      unsharp gray w h radius amount i ≤ 255) ∧
    (∀ x ∈ stretch grayL low high, 0 ≤ x ∧ x ≤ 255) ∧
    (∀ x ∈ histogramEqualize grayL, 0 ≤ x ∧ x ≤ 255) ∧
    (∀ i, 0 ≤ directionalSharpenVertical gray w h strength i ∧
      directionalSharpenVertical gray w h strength i ≤ 255) ∧
    (∀ i, 0 ≤ sobelX gray w h i ∧ sobelX gray w h i ≤ 1020) :=
  ⟨boxBlur_inRange gray w h radius hg, median3x3_inRange gray w h hg,
    unsharp_inRange gray w h radius amount, stretch_inRange grayL low high,
    histogramEqualize_inRange grayL,
    directionalSharpenVertical_inRange gray w h strength,
    sobelX_bounds gray w h hg⟩

/-- Witness for the amended C6 on a constant buffer of value 100. -/
theorem c6_primitives_ranges_witness :
    (0 ≤ median3x3 (fun _ => 100) 2 2 0 ∧ median3x3 (fun _ => 100) 2 2 0 ≤ 255) ∧
    (0 ≤ sobelX (fun _ => 100) 2 2 0 ∧ sobelX (fun _ => 100) 2 2 0 ≤ 1020) :=
  ⟨(c6_primitives_ranges (fun _ => 100) [100] 2 2 1 1 1 0 1
      (fun i => by norm_num)
      (fun x hx => by
        simp only [List.mem_singleton] at hx
        rw [hx]
        norm_num)).2.1 0,
    (c6_primitives_ranges (fun _ => 100) [100] 2 2 1 1 1 0 1
      (fun i => by norm_num)
      (fun x hx => by
        simp only [List.mem_singleton] at hx
        rw [hx]
        norm_num)).2.2.2.2.2.2 0⟩

theorem jsRound_mono {a b : ℚ} (h : a ≤ b) : jsRound a ≤ jsRound b :=
  Int.floor_le_floor (by linarith)

theorem clampI_mono {a b : ℤ} (lo hi : ℤ) (h : a ≤ b) :
    clampI a lo hi ≤ clampI b lo hi :=
  max_le_max le_rfl (min_le_min le_rfl h)

theorem roundClamp_mono {a b : ℚ} (h : a ≤ b) : roundClamp a ≤ roundClamp b :=
  Int.toNat_le_toNat (clampI_mono 0 255 (jsRound_mono h))

theorem cumsum_mono (hist : ℕ → ℕ) {v v2 : ℕ} (h : v ≤ v2) :
    cumsum hist v ≤ cumsum hist v2 := by
  rw [cumsum, cumsum]
  refine Finset.sum_le_sum_of_subset_of_nonneg
    (Finset.range_subset.mpr (by omega)) fun i2 _ _ => by positivity

theorem sum_count_eq_length (l : List ℕ) (n : ℕ) (hl : ∀ x ∈ l, x < n) :
    (∑ v ∈ Finset.range n, l.count v) = l.length := by
  induction l with
  | nil => simp
  | cons a t ih =>
    have ha : a < n := hl a (by simp)
    have ht : ∀ x ∈ t, x < n := fun x hx => hl x (by simp [hx])
    simp only [List.count_cons, List.length_cons]
    rw [Finset.sum_add_distrib, ih ht]
    have hone : (∑ v ∈ Finset.range n, if (a == v) = true then 1 else 0) = 1 := by
      have h := Finset.sum_ite_eq (Finset.range n) a (fun _ => (1 : ℕ))
      simpa [Finset.mem_range, ha] using h
    omega

theorem cumsum_histOf_le (gray : List ℚ) (v : ℕ) (hv : v ≤ 255) :
    cumsum (histOf gray) v ≤ (gray.length : ℚ) := by
  have hsub : cumsum (histOf gray) v
      ≤ ∑ j ∈ Finset.range 256, (histOf gray j : ℚ) := by
    rw [cumsum]
    refine Finset.sum_le_sum_of_subset_of_nonneg
      (Finset.range_subset.mpr (by omega)) fun i2 _ _ => by positivity
  have h1 : (∑ j ∈ Finset.range 256, (gray.map roundClamp).count j)
      = (gray.map roundClamp).length := by
    apply sum_count_eq_length
    intro x hx
    obtain ⟨g, _, rfl⟩ := List.mem_map.mp hx
    have h2 := roundClamp_le_255 g
    omega
  have heq : (∑ j ∈ Finset.range 256, (histOf gray j : ℚ)) = (gray.length : ℚ) := by
    calc (∑ j ∈ Finset.range 256, (histOf gray j : ℚ))
        = ((∑ j ∈ Finset.range 256, (gray.map roundClamp).count j : ℕ) : ℚ) := by
          rw [Nat.cast_sum]
          rfl
      _ = (gray.length : ℚ) := by rw [h1, List.length_map]
  exact le_of_le_of_eq hsub heq

theorem cdfMinOf_cases (hist : ℕ → ℕ) :
    cdfMinOf hist = 0 ∨ ∃ i2, i2 < 256 ∧ cdfMinOf hist = cumsum hist i2 := by
  rw [cdfMinOf]
  cases hfind : (List.range 256).find? (fun i2 => decide (0 < cumsum hist i2)) with
  | none => exact Or.inl rfl
  | some i2 =>
    exact Or.inr ⟨i2, List.mem_range.mp (List.mem_of_find?_eq_some hfind), rfl⟩

theorem cdfMinOf_le_length (gray : List ℚ) :
    cdfMinOf (histOf gray) ≤ (gray.length : ℚ) := by
  rcases cdfMinOf_cases (histOf gray) with h | ⟨i2, hi2, h⟩
  · rw [h]
    positivity
  · rw [h]
    exact cumsum_histOf_le gray i2 (by omega)

theorem hEq_den_pos (gray : List ℚ) :
    0 < (if (gray.length : ℚ) - cdfMinOf (histOf gray) = 0 then 1
      else (gray.length : ℚ) - cdfMinOf (histOf gray)) := by
  split_ifs with h
  · norm_num
  · have h2 := cdfMinOf_le_length gray
    have h3 : 0 ≤ (gray.length : ℚ) - cdfMinOf (histOf gray) := by linarith
    exact lt_of_le_of_ne h3 (Ne.symm h)

theorem getD_map_of_lt (f : ℚ → ℚ) (l : List ℚ) (i : ℕ) (hi : i < l.length)
    (d : ℚ) : (l.map f).getD i d = f (l.getD i d) := by
  have hi2 : i < (l.map f).length := by
    rw [List.length_map]
    exact hi
  rw [List.getD_eq_getElem?_getD, List.getElem?_eq_getElem hi2,
    List.getD_eq_getElem?_getD, List.getElem?_eq_getElem hi]
  simp [List.getElem_map]

/-- Claim C9: `histogramEqualize` is a monotone non-decreasing per-pixel
mapping: for any two positions within the buffer, a smaller-or-equal
input sample yields a smaller-or-equal equalized output sample. -/
theorem c9_histogramEqualize_monotone (gray : List ℚ) (i j : ℕ)
    (hi : i < gray.length) (hj : j < gray.length)
    (hij : gray.getD i 0 ≤ gray.getD j 0) :
    (histogramEqualize gray).getD i 0 ≤ (histogramEqualize gray).getD j 0 := by
  have hden := hEq_den_pos gray
  simp only [histogramEqualize]
  rw [getD_map_of_lt _ _ i hi 0, getD_map_of_lt _ _ j hj 0]
  apply clamp255_mono
  apply mul_le_mul_of_nonneg_right _ (by norm_num : (0 : ℚ) ≤ 255)
  rw [div_le_div_iff_of_pos_right hden]
  exact sub_le_sub_right (cumsum_mono _ (roundClamp_mono hij)) _

/-- Witness for C9 on the buffer `[10, 20]` at positions 0 and 1. -/
theorem c9_histogramEqualize_monotone_witness :
    (histogramEqualize [(10 : ℚ), 20]).getD 0 0
      ≤ (histogramEqualize [(10 : ℚ), 20]).getD 1 0 :=
  c9_histogramEqualize_monotone [(10 : ℚ), 20] 0 1 (by norm_num) (by norm_num)
    (by norm_num [List.getD_cons_zero, List.getD_cons_succ])

end Barcode
